import Mathlib

/-!
Verification of the URL-normalization, deduplication and download logic of
`download_covers.py` (Game Informer cover downloader).

Python strings are modelled as `List Char`.  The script's own functions
(`normalize_url`, the dedup loop in `main`, `download_image`, the download
loop of `main`) are translated directly from the source.  The pieces of the
Python standard library the script calls (`urllib.parse.urlparse`,
`urllib.parse.urljoin` at the fixed base `https://gameinformer.com`,
`os.path.basename`, `os.path.exists` over the output directory,
`str.split`, `re.sub` with the anchored pattern `\.(jpg|jpeg|png|webp)$`)
are translated from their CPython (3.11) semantics, restricted to what
the script exercises.  `urlsplit` includes the WHATWG sanitization
(leading C0-control/space strip, tab/CR/LF removal); its `ValueError`
paths are modelled by the predicates `invalidIPv6` (the exact condition
of the Invalid-IPv6 bracket raise) and `urlsplitSafe` (a sufficient
bracket-free/ASCII-netloc condition under which none of the raise paths
— including the bracketed-host validation and the NFKC netloc check,
whose full conditions are not reproduced — can fire, so that the total
functions below agree with the program).  Console logging is modelled
only as the `reportedSkip` flag of the downloader.
-/

namespace CoverExport

/-- Python strings, modelled as lists of characters. -/
abbrev Str := List Char

/-- Split a string at the first occurrence of character `c`:
`some (before, after)` if `c` occurs, `none` otherwise.
Models Python `s.split(c, 1)` / `s.find(c)`. -/
def splitFirst (c : Char) : Str → Option (Str × Str)
  | [] => none
  | a :: rest =>
    if a = c then some ([], rest)
    else
      match splitFirst c rest with
      | some (l, r) => some (a :: l, r)
      | none => none

/-- Python `s.split(c)[0]`: the part of `s` before the first `c`. -/
def takeUntilChar (c : Char) (s : Str) : Str := s.takeWhile (fun a => a ≠ c)

/-- The part of `s` after the last `'/'` (all of `s` when there is none).
Models both `posixpath.basename` and Python `s.split('/')[-1]`. -/
def lastSeg (s : Str) : Str := (s.reverse.takeWhile (fun a => a ≠ '/')).reverse

/-- Python `c in s` for a single character. -/
def containsChar (c : Char) (s : Str) : Bool := s.any (fun a => a = c)

/-- Python `sep in s` for a (nonempty) substring `sep`. -/
def containsSeq (sep : Str) : Str → Bool
  | [] => sep.isPrefixOf []
  | a :: rest => sep.isPrefixOf (a :: rest) || containsSeq sep rest

/-- Auxiliary scan for `countSeq`: when `skip` is positive, that many
characters still belong to an already-counted occurrence. -/
def countSeqAux (sep : Str) : Str → Nat → Nat
  | [], _ => 0
  | _ :: rest, Nat.succ k => countSeqAux sep rest k
  | a :: rest, 0 =>
    if sep.isPrefixOf (a :: rest) then countSeqAux sep rest (sep.length - 1) + 1
    else countSeqAux sep rest 0

/-- Python `s.count(sep)` for nonempty `sep`: number of non-overlapping
occurrences, scanning left to right. -/
def countSeq (sep s : Str) : Nat := countSeqAux sep s 0

/-- The part of `s` before the first occurrence of the substring `sep`
(all of `s` when `sep` does not occur). -/
def takeUntilSep (sep : Str) : Str → Str
  | [] => []
  | a :: rest =>
    if sep.isPrefixOf (a :: rest) then []
    else a :: takeUntilSep sep rest

/-- The part of `s` after the first occurrence of the substring `sep`
(`[]` when `sep` does not occur). -/
def dropThroughFirst (sep : Str) : Str → Str
  | [] => []
  | a :: rest =>
    if sep.isPrefixOf (a :: rest) then rest.drop (sep.length - 1)
    else dropThroughFirst sep rest

/-- Python `s.split(sep)[1]` for nonempty `sep` occurring in `s`:
the chunk between the first occurrence of `sep` and the following one
(or the end of the string). -/
def pySplitSnd (sep s : Str) : Str := takeUntilSep sep (dropThroughFirst sep s)

/-- Python `s.split(c)` for a single-character separator. -/
def splitAllChar (c : Char) : Str → List Str
  | [] => [[]]
  | a :: rest =>
    match splitAllChar c rest with
    | [] => [[]]
    | h :: tl => if a = c then [] :: h :: tl else (a :: h) :: tl

/-! ### Model of `urllib.parse` (the parts used by the script) -/

/-- Result of CPython `urlsplit` (`params` not yet separated from `path`). -/
structure UrlSplitResult where
  scheme : Str
  netloc : Str
  path : Str
  query : Str
  fragment : Str
deriving DecidableEq

/-- CPython `scheme_chars`: ASCII letters, digits, `+`, `-`, `.`. -/
def isSchemeChar (c : Char) : Bool :=
  c.isAlpha || c.isDigit || c = '+' || c = '-' || c = '.'

/-- Scheme recognition of CPython `urlsplit`: a scheme is present when the
first `:` has before it a nonempty run of scheme characters beginning with
an ASCII letter; the scheme is lowercased.  Returns `(scheme, remainder)`,
with scheme `[]` when absent. -/
def parseScheme (url : Str) : Str × Str :=
  match splitFirst ':' url with
  | some (bef, aft) =>
    if bef ≠ [] ∧ (bef.headD 'a').isAlpha ∧ bef.all isSchemeChar
    then (bef.map Char.toLower, aft)
    else ([], url)
  | none => ([], url)

/-- Characters ending the netloc in CPython `_splitnetloc`. -/
def isNetlocEnd (c : Char) : Bool := c = '/' || c = '?' || c = '#'

/-- CPython `url.lstrip(_WHATWG_C0_CONTROL_OR_SPACE)`: remove leading
characters with code point `0x00`-`0x20` (C0 controls and space). -/
def lstripControl (s : Str) : Str := s.dropWhile (fun c => c.toNat ≤ 32)

/-- CPython's removal of `_UNSAFE_URL_BYTES_TO_REMOVE`: the three
successive `url.replace(b, '')` calls for `'\t'`, `'\r'`, `'\n'` delete
every occurrence of those characters, i.e. filter them out. -/
def removeUnsafe (s : Str) : Str :=
  s.filter (fun c => !(c = '\t' || c = '\r' || c = '\n'))

/-- CPython `urlsplit(url)` with `allow_fragments=True`, including the
WHATWG sanitization it performs first.  The function's `ValueError`
paths (the Invalid-IPv6 bracket check, the bracketed-host validation and
the NFKC netloc check) are modelled separately: `invalidIPv6` is the
exact condition of the first raise, and `urlsplitSafe` is a sufficient
condition under which none of the three can fire, so that on the
`urlsplitSafe` domain this total function agrees with the program. -/
def urlsplit (url : Str) : UrlSplitResult :=
  let sr := parseScheme (removeUnsafe (lstripControl url))
  let scheme := sr.1
  let rest0 := sr.2
  let nr :=
    if "//".data.isPrefixOf rest0 then
      let r := rest0.drop 2
      (r.takeWhile (fun c => !isNetlocEnd c), r.dropWhile (fun c => !isNetlocEnd c))
    else ([], rest0)
  let netloc := nr.1
  let fr :=
    match splitFirst '#' nr.2 with
    | some (a, b) => (a, b)
    | none => (nr.2, [])
  let qr :=
    match splitFirst '?' fr.1 with
    | some (a, b) => (a, b)
    | none => (fr.1, [])
  ⟨scheme, netloc, qr.1, qr.2, fr.2⟩

/-- CPython `_splitparams`, as guarded by `urlparse`: split `;params` off
the last `/`-segment of the path (only when `;` occurs in the path). -/
def splitParams (path : Str) : Str × Str :=
  if containsChar ';' path = false then (path, [])
  else if containsChar '/' path then
    match splitFirst ';' (lastSeg path) with
    | none => (path, [])
    | some (a, b) => (path.take (path.length - (lastSeg path).length) ++ a, b)
  else
    match splitFirst ';' path with
    | none => (path, [])
    | some (a, b) => (a, b)

/-- CPython `uses_params`: schemes for which `urlparse` separates the
`;params` component from the path. -/
def usesParams : List Str :=
  ["".data, "ftp".data, "hdl".data, "prospero".data, "http".data, "imap".data,
   "https".data, "mms".data, "news".data, "rtsp".data, "rtspu".data, "sip".data,
   "sips".data, "snews".data, "telnet".data, "wais".data, "shttp".data, "sftp".data]

/-- `urlparse(url).path`: the `urlsplit` path, with `;params` removed when
the scheme is in `uses_params`. -/
def parsedPath (url : Str) : Str :=
  let sp := urlsplit url
  if sp.scheme ∈ usesParams then (splitParams sp.path).1 else sp.path

/-- The exact condition of CPython `urlsplit`'s
`raise ValueError("Invalid IPv6 URL")`: the netloc contains one of `[`,
`]` but not the other.  (The check runs right after the netloc is split
off, on the same netloc value this model computes.) -/
def invalidIPv6 (url : Str) : Bool :=
  containsChar '[' (urlsplit url).netloc != containsChar ']' (urlsplit url).netloc

/-- A sufficient condition for CPython `urlsplit(url)` to raise no
`ValueError`: the netloc contains no square bracket (so neither the
Invalid-IPv6 check nor the bracketed-host validation can fire) and is
pure ASCII (so `_checknetloc`'s NFKC comparison returns immediately).
On this domain the total `urlsplit` above returns exactly what the
program returns. -/
def urlsplitSafe (url : Str) : Bool :=
  !containsChar '[' (urlsplit url).netloc &&
  !containsChar ']' (urlsplit url).netloc &&
  (urlsplit url).netloc.all (fun c => c.toNat < 128)

/-- The fixed base URL the script resolves relative links against. -/
def baseUrl : Str := "https://gameinformer.com".data

/-- CPython `urlunsplit` restricted to the shapes `urljoin` produces here;
`pathParams` is the path with `;params` already re-attached. -/
def unsplitUrl (scheme netloc pathParams query fragment : Str) : Str :=
  let u := pathParams
  let u :=
    if netloc ≠ [] ∨ "//".data.isPrefixOf u then
      "//".data ++ netloc ++ (if u ≠ [] ∧ ¬("/".data.isPrefixOf u) then '/' :: u else u)
    else u
  let u := if scheme ≠ [] then scheme ++ ':' :: u else u
  let u := if query ≠ [] then u ++ '?' :: query else u
  if fragment ≠ [] then u ++ '#' :: fragment else u

/-- The `.`/`..` segment resolution loop of CPython `urljoin`
(`..` pops the accumulated list, silently ignored when it is empty). -/
def resolveDots (segs : List Str) : List Str :=
  segs.foldl
    (fun acc seg =>
      if seg = "..".data then acc.dropLast
      else if seg = ".".data then acc
      else acc ++ [seg]) []

/-- CPython `urljoin('https://gameinformer.com', url)`.  The base parses to
scheme `https`, netloc `gameinformer.com`, empty path/params/query/fragment,
and `uses_relative`/`uses_netloc` both contain `https`, so the general
algorithm specializes as below. -/
def urljoinBase (url : Str) : Str :=
  if url = [] then baseUrl
  else
    let p := urlsplit url
    let scheme := if p.scheme = [] then "https".data else p.scheme
    let pp := splitParams p.path
    let path := pp.1
    let params := pp.2
    if scheme ≠ "https".data then url
    else if p.netloc ≠ [] then
      unsplitUrl scheme p.netloc
        (if params ≠ [] then path ++ ';' :: params else path) p.query p.fragment
    else if path = [] ∧ params = [] then
      unsplitUrl scheme "gameinformer.com".data [] p.query p.fragment
    else
      let segs :=
        if "/".data.isPrefixOf path then splitAllChar '/' path
        else
          let ps := splitAllChar '/' path
          [([] : Str)] ++ ps.dropLast.filter (fun s => s ≠ []) ++ [ps.getLastD []]
      let res := resolveDots segs
      let res := if segs.getLastD [] = ".".data ∨ segs.getLastD [] = "..".data
                 then res ++ [([] : Str)] else res
      let joined := List.intercalate ['/'] res
      let path2 := if joined = [] then "/".data else joined
      let pathParams := if params = [] then path2 else path2 ++ ';' :: params
      unsplitUrl scheme "gameinformer.com".data pathParams p.query p.fragment

/-! ### Model of `normalize_url` (`download_covers.py`, lines 15-57) -/

/-- The literal `'/sites/default/files/'` of `normalize_url`. -/
def markerStr : Str := "/sites/default/files/".data

/-- The literal `'styles/no_compression/public/'` of `normalize_url`. -/
def stylesPre : Str := "styles/no_compression/public/".data

/-- The canonical prefix with a leading slash, as a path substring. -/
def publicMarkerStr : Str := "/sites/default/files/styles/no_compression/public/".data

/-- The full canonical URL prefix rebuilt on line 55 of the script. -/
def canonicalPre : Str :=
  "https://gameinformer.com/sites/default/files/styles/no_compression/public/".data

/-- Case-insensitive suffix test, modelling `re` matching with
`re.IGNORECASE` against a fixed lowercase pattern. -/
def lowerEnds (suf s : Str) : Bool := suf.isSuffixOf (s.map Char.toLower)

/-- `re.sub(r'\.(jpg|jpeg|png|webp)$', '', s, flags=re.IGNORECASE)`:
remove one trailing image extension, case-insensitively, if present.
The four suffixes are mutually exclusive, so the alternation order of the
pattern does not matter. -/
def stripImageExt (s : Str) : Str :=
  if lowerEnds ".jpeg".data s then s.take (s.length - 5)
  else if lowerEnds ".jpg".data s then s.take (s.length - 4)
  else if lowerEnds ".png".data s then s.take (s.length - 4)
  else if lowerEnds ".webp".data s then s.take (s.length - 5)
  else s

/-- Lines 44-52 of `normalize_url`: make the path chunk end in `.jpg.webp`. -/
def normalizeExt (pa : Str) : Str :=
  if ".jpg.webp".data.isSuffixOf pa then pa
  else if ".webp".data.isSuffixOf pa then pa.take (pa.length - 5) ++ ".jpg.webp".data
  else stripImageExt pa ++ ".jpg.webp".data

/-- Lines 21-22 of `normalize_url`: resolve against the base host unless
the string starts with `http`. -/
def resolveUrl (url : Str) : Str :=
  if "http".data.isPrefixOf url then url else urljoinBase url

/-- `normalize_url` (`download_covers.py`, lines 15-57). -/
def normalize_url (url : Str) : Str :=
  let u := resolveUrl url
  let ppath := parsedPath u
  if containsSeq markerStr ppath then
    let pa0 := pySplitSnd markerStr ppath
    let pa1 := takeUntilChar '#' (takeUntilChar '?' pa0)
    let pa2 := if stylesPre.isPrefixOf pa1 then pa1.drop stylesPre.length else pa1
    canonicalPre ++ normalizeExt pa2
  else u

/-! ### Deduplication (`main`, lines 137-143) -/

/-- The dedup loop of `main`: `seen` models the Python `set` (only
membership is used, so a list of previously seen values suffices). -/
def dedupAux (seen : List Str) : List Str → List Str
  | [] => []
  | u :: rest =>
    if u ∈ seen then dedupAux seen rest
    else u :: dedupAux (u :: seen) rest

/-- Duplicate removal of `main` (lines 137-143): first occurrence wins,
insertion order preserved. -/
def dedup (l : List Str) : List Str := dedupAux [] l

/-- Specification-side description of deduplication: keep the head and
delete every later occurrence of it, recursively.  Stated from the spec's
words ("the output contains exactly the first occurrence of each distinct
value in insertion order"); compared with `dedup` in the theorems. -/
def firstSeenSpec : List Str → List Str
  | [] => []
  | a :: l => a :: firstSeenSpec (l.filter (fun x => x ≠ a))
termination_by l => l.length
decreasing_by
  simp only [List.length_cons]
  exact Nat.lt_succ_of_le (List.length_filter_le _ _)

/-! ### Downloader (`download_image`, lines 90-120, and `main`, lines 153-168) -/

/-- `os.path.basename(urlparse(url).path)` as used on lines 93 and 159. -/
def pyBasename (p : Str) : Str := lastSeg p

/-- Filename derivation of `download_image` (lines 93-96): basename of the
parsed path, falling back to `url.split('/')[-1]` when empty. -/
def derivedFilename (url : Str) : Str :=
  let f := pyBasename (parsedPath url)
  if f = [] then lastSeg url else f

/-- `os.path.exists(os.path.join(output_dir, filename))` (and equally
`(Path(output_dir) / filename).exists()`), with `files` the names of the
files inside the output directory.  Joining the directory with `''`,
`'.'` or `'..'` yields the (created) output directory itself or its
parent, which exist, so those names always test positive; any other
name exists exactly when it is in the directory.  (Filenames here never
contain `'/'`: they are produced by `basename` / `split('/')[-1]`.) -/
abbrev pathExists (files : List Str) (filename : Str) : Prop :=
  filename = [] ∨ filename = ".".data ∨ filename = "..".data ∨ filename ∈ files

/-- Observable outcome of one `download_image` call.  `files` is the set of
filenames present in the output directory (contents are irrelevant to the
claims), `ok` the boolean return value, `netCalls` the number of HTTP
requests issued, `reportedSkip` whether the "already exists" skip message
was printed. -/
structure DlOutcome where
  files : List Str
  ok : Bool
  netCalls : Nat
  reportedSkip : Bool
deriving DecidableEq

/-- `download_image(url, output_dir)` (lines 90-120).  `fetch` models the
network: `some content` is a successful GET whose bytes are written,
`none` means the `try` block raised (request error, bad status, or write
failure), which the function catches, logging and returning `False`. -/
def download_image (fetch : Str → Option Str) (files : List Str) (url : Str) :
    DlOutcome :=
  let filename := derivedFilename url
  if pathExists files filename then ⟨files, true, 0, true⟩
  else
    match fetch url with
    | some _ => ⟨files ++ [filename], true, 1, false⟩
    | none => ⟨files, false, 1, false⟩

/-- Observable outcome of the download loop of `main`. -/
structure RunOutcome where
  files : List Str
  successCount : Nat
  skipCount : Nat
  netCalls : Nat
deriving DecidableEq

/-- The download loop of `main` (lines 157-168): its own existence check
(basename without the fallback, line 159) guards `skip_count`; otherwise
`download_image` runs and a `True` return increments `success_count`. -/
def runDownloads (fetch : Str → Option Str) (files : List Str) :
    List Str → RunOutcome
  | [] => ⟨files, 0, 0, 0⟩
  | url :: rest =>
    let filename := pyBasename (parsedPath url)
    if pathExists files filename then
      let r := runDownloads fetch files rest
      ⟨r.files, r.successCount, r.skipCount + 1, r.netCalls⟩
    else
      let o := download_image fetch files url
      let r := runDownloads fetch o.files rest
      ⟨r.files, r.successCount + (if o.ok then 1 else 0), r.skipCount,
        r.netCalls + o.netCalls⟩

/-! ### Spec-side canonical form (section 3 of the design document) -/

/-- Canonical-URL invariant exactly as the design document states it:
"always absolute, always under the
`/sites/default/files/styles/no_compression/public/` prefix, always ends
in `.jpg.webp`" (with the fixed host, this is the prefix built on
line 55).  Stated from the spec's words, to be compared with the code's
actual fixpoints. -/
def isCanonicalSpec (u : Str) : Bool :=
  canonicalPre.isPrefixOf u && ".jpg.webp".data.isSuffixOf u

/-! ### Bridge lemmas between boolean string tests and list relations -/

lemma prefixOf_eq {a b : Str} : a.isPrefixOf b = true ↔ a <+: b := by
  exact List.isPrefixOf_iff_prefix

lemma suffixOf_eq {a b : Str} : a.isSuffixOf b = true ↔ a <:+ b := by
  exact List.isSuffixOf_iff_suffix

lemma isInfixOfPre {a b : Str} (h : a <+: b) : a <:+: b := by
  exact List.IsPrefix.isInfix h

lemma isInfixOfSuf {a b : Str} (h : a <:+ b) : a <:+: b := by
  exact List.IsSuffix.isInfix h

lemma infixConsIff {m l : Str} {a : Char} :
    m <:+: a :: l ↔ m <+: a :: l ∨ m <:+: l := by
  exact List.infix_cons_iff

lemma memTails {p t : Str} : p ∈ t.tails ↔ p <:+ t := by
  exact List.mem_tails p t

lemma preOrPre {a b c : Str} (h₁ : a <+: c) (h₂ : b <+: c) : a <+: b ∨ b <+: a := by
  exact List.prefix_or_prefix_of_prefix h₁ h₂

lemma takeWhilePre (p : Char → Bool) (s : Str) : s.takeWhile p <+: s := by
  exact List.takeWhile_prefix p

lemma takePre (n : Nat) (s : Str) : s.take n <+: s := by
  exact List.take_prefix n s

lemma dropSuf (n : Nat) (s : Str) : s.drop n <:+ s := by
  exact List.drop_suffix n s

lemma dropLen {a b : Str} {n : Nat} (h : a.length = n) : (a ++ b).drop n = b := by
  exact List.drop_left' h

lemma takeLen {a b : Str} {n : Nat} (h : a.length = n) : (a ++ b).take n = a := by
  exact List.take_left' h

/-! ### Lemmas about the Python string primitives -/

lemma containsSeq_iff_occ {sep s : Str} : containsSeq sep s = true ↔ sep <:+: s := by
  induction s with
  | nil =>
    simp only [containsSeq, prefixOf_eq]
    constructor
    · intro h
      exact isInfixOfPre h
    · rintro ⟨s, t, hst⟩
      simp only [List.append_eq_nil] at hst
      simp [hst.1.2]
  | cons a rest ih =>
    simp only [containsSeq, Bool.or_eq_true, prefixOf_eq, ih, infixConsIff]

lemma takeUntilSep_isPre (sep : Str) : ∀ s : Str, takeUntilSep sep s <+: s := by
  intro s
  induction s with
  | nil => simp [takeUntilSep]
  | cons a rest ih =>
    by_cases h : sep.isPrefixOf (a :: rest) = true
    · simp [takeUntilSep, h]
    · simp only [takeUntilSep, h]
      rw [if_neg (by simp [h])]
      exact List.cons_prefix_cons.mpr ⟨rfl, ih⟩

lemma takeUntilSep_free {sep : Str} (hsep : sep ≠ []) :
    ∀ s : Str, containsSeq sep (takeUntilSep sep s) = false := by
  intro s
  induction s with
  | nil =>
    simp only [takeUntilSep, containsSeq]
    cases sep with
    | nil => exact absurd rfl hsep
    | cons c cs => rfl
  | cons a rest ih =>
    by_cases h : sep.isPrefixOf (a :: rest) = true
    · simp only [takeUntilSep, if_pos h, containsSeq]
      cases sep with
      | nil => exact absurd rfl hsep
      | cons c cs => rfl
    · rw [takeUntilSep, if_neg (by simp [h])]
      simp only [containsSeq, Bool.or_eq_false_iff]
      refine ⟨?_, ih⟩
      cases hpre : sep.isPrefixOf (a :: takeUntilSep sep rest) with
      | false => rfl
      | true =>
        exfalso
        apply h
        refine prefixOf_eq.mpr (List.IsPrefix.trans (prefixOf_eq.mp hpre) ?_)
        exact List.cons_prefix_cons.mpr ⟨rfl, takeUntilSep_isPre sep rest⟩

lemma takeUntilSep_eq_self {sep : Str} :
    ∀ {s : Str}, containsSeq sep s = false → takeUntilSep sep s = s := by
  intro s
  induction s with
  | nil => intro _; rfl
  | cons a rest ih =>
    intro h
    simp only [containsSeq, Bool.or_eq_false_iff] at h
    rw [takeUntilSep, if_neg (by simp [h.1]), ih h.2]

lemma dropThroughFirst_self {sep t : Str} (hsep : sep ≠ []) :
    dropThroughFirst sep (sep ++ t) = t := by
  cases sep with
  | nil => exact absurd rfl hsep
  | cons c cs =>
    have hpre : (c :: cs).isPrefixOf (c :: (cs ++ t)) = true :=
      prefixOf_eq.mpr ⟨t, by simp⟩
    show dropThroughFirst (c :: cs) (c :: (cs ++ t)) = t
    simp only [dropThroughFirst]
    rw [if_pos hpre]
    simp only [List.length_cons, Nat.add_sub_cancel]
    exact dropLen rfl

lemma countSeqAux_skip (sep : Str) : ∀ a t : Str,
    countSeqAux sep (a ++ t) a.length = countSeqAux sep t 0 := by
  intro a
  induction a with
  | nil => intro t; rfl
  | cons c a' ih =>
    intro t
    show countSeqAux sep (c :: (a' ++ t)) (a'.length + 1) = countSeqAux sep t 0
    rw [countSeqAux]
    exact ih t

lemma countSeq_self_append {sep t : Str} (hsep : sep ≠ []) :
    countSeq sep (sep ++ t) = countSeq sep t + 1 := by
  cases sep with
  | nil => exact absurd rfl hsep
  | cons c cs =>
    have hpre : (c :: cs).isPrefixOf (c :: (cs ++ t)) = true :=
      prefixOf_eq.mpr ⟨t, by simp⟩
    show countSeqAux (c :: cs) (c :: (cs ++ t)) 0 = countSeqAux (c :: cs) t 0 + 1
    rw [countSeqAux, if_pos hpre]
    simp only [List.length_cons, Nat.add_sub_cancel]
    rw [countSeqAux_skip]

lemma countSeq_zero_of_free {sep : Str} :
    ∀ {s : Str}, containsSeq sep s = false → countSeq sep s = 0 := by
  intro s
  induction s with
  | nil => intro _; rfl
  | cons a rest ih =>
    intro h
    simp only [containsSeq, Bool.or_eq_false_iff] at h
    show countSeqAux sep (a :: rest) 0 = 0
    rw [countSeqAux, if_neg (by simp [h.1])]
    exact ih h.2

lemma countSeq_prepend {sep : Str} :
    ∀ {pre : Str}, (∀ p : Str, p <:+ pre → p ≠ [] → ¬ p <+: sep ∧ ¬ sep <+: p) →
    ∀ t : Str, countSeq sep (pre ++ t) = countSeq sep t := by
  intro pre
  induction pre with
  | nil => intro _ t; rfl
  | cons c pre' ih =>
    intro hno t
    have hself := hno (c :: pre') (List.suffix_refl _) (by simp)
    have hfalse : sep.isPrefixOf (c :: (pre' ++ t)) = false := by
      cases hb : sep.isPrefixOf (c :: (pre' ++ t)) with
      | false => rfl
      | true =>
        exfalso
        have h1 : sep <+: (c :: pre') ++ t := by
          simpa using prefixOf_eq.mp hb
        have h2 : (c :: pre') <+: (c :: pre') ++ t := ⟨t, rfl⟩
        rcases preOrPre h1 h2 with h | h
        · exact hself.2 h
        · exact hself.1 h
    show countSeqAux sep (c :: (pre' ++ t)) 0 = countSeqAux sep t 0
    rw [countSeqAux, if_neg (by simp [hfalse])]
    refine ih ?_ t
    intro p hp hne
    exact hno p (hp.trans (List.suffix_cons c pre')) hne

lemma infix_append_cases {m : Str} : ∀ {a b : Str}, m <:+: a ++ b →
    m <:+: a ∨ m <:+: b ∨
    ∃ x y : Str, m = x ++ y ∧ x ≠ [] ∧ y ≠ [] ∧ x <:+ a ∧ y <+: b := by
  intro a
  induction a with
  | nil =>
    intro b h
    right; left
    simpa using h
  | cons c a' ih =>
    intro b h
    rcases infixConsIff.mp (by simpa using h) with hpre | hinf
    · by_cases hlen : m.length ≤ (c :: a').length
      · left
        have h2 : m <+: c :: a' ∨ c :: a' <+: m := preOrPre hpre ⟨b, List.cons_append c a' b⟩
        rcases h2 with h3 | h3
        · exact isInfixOfPre h3
        · have : m.length = (c :: a').length :=
            Nat.le_antisymm hlen h3.length_le
          have hm : m = c :: a' := by
            rcases h3 with ⟨u, hu⟩
            have hlu : u.length = 0 := by
              have := congrArg List.length hu
              simp only [List.length_append] at this
              omega
            rw [List.eq_nil_of_length_eq_zero hlu] at hu
            simpa using hu.symm
          exact hm ▸ isInfixOfPre (List.prefix_refl _)
      · right; right
        have hca : (c :: a') <+: m := by
          rcases preOrPre hpre ⟨b, List.cons_append c a' b⟩ with h3 | h3
          · exact absurd (h3.length_le) hlen
          · exact h3
        rcases hca with ⟨y, hy⟩
        refine ⟨c :: a', y, hy.symm, by simp, ?_, List.suffix_refl _, ?_⟩
        · intro hynil
          rw [hynil, List.append_nil] at hy
          exact hlen (le_of_eq (congrArg List.length hy.symm))
        · rcases hpre with ⟨t2, ht2⟩
          rw [← hy, List.append_assoc] at ht2
          have := List.append_cancel_left ht2
          exact ⟨t2, this⟩
    · rcases ih hinf with h | h | ⟨x, y, hxy, hx, hy, hxa, hyb⟩
      · exact Or.inl (List.infix_cons h)
      · exact Or.inr (Or.inl h)
      · exact Or.inr (Or.inr ⟨x, y, hxy, hx, hy, hxa.trans (List.suffix_cons c a'), hyb⟩)

lemma not_infix_append {m a b : Str} (ha : ¬ m <:+: a) (hb : ¬ m <:+: b)
    (hspan : ∀ y : Str, y <:+ m → y ≠ [] → y.length ≠ m.length → ¬ y <+: b) :
    ¬ m <:+: a ++ b := by
  intro h
  rcases infix_append_cases h with h1 | h1 | ⟨x, y, hxy, hx, hy, _, hyb⟩
  · exact ha h1
  · exact hb h1
  · refine hspan y ⟨x, hxy.symm⟩ hy ?_ hyb
    intro hlen
    apply hx
    have := congrArg List.length hxy
    simp only [List.length_append] at this
    exact List.eq_nil_of_length_eq_zero (by omega)

lemma preExtend {a b : Str} (t : Str) (h : a <+: b) : a <+: b ++ t :=
  h.trans ⟨t, rfl⟩

lemma sufExtend {a b : Str} (t : Str) (h : a <:+ b) : a <:+ t ++ b :=
  h.trans ⟨t, rfl⟩

lemma takeWhile_stop {p : Char → Bool} {c : Char} (h : p c = false) :
    ∀ x r : Str, (x ++ c :: r).takeWhile p = x.takeWhile p := by
  intro x r
  induction x with
  | nil => simp [List.takeWhile_cons, h]
  | cons a x' ih =>
    show ((a :: (x' ++ c :: r)).takeWhile p) = _
    rw [List.takeWhile_cons, List.takeWhile_cons, ih]

lemma dropWhile_stop {p : Char → Bool} {c : Char} (h : p c = false) :
    ∀ x r : Str, (x ++ c :: r).dropWhile p = x.dropWhile p ++ c :: r := by
  intro x r
  induction x with
  | nil => simp [List.dropWhile_cons, h]
  | cons a x' ih =>
    show ((a :: (x' ++ c :: r)).dropWhile p) = _
    rw [List.dropWhile_cons, List.dropWhile_cons, ih]
    cases p a <;> simp

lemma takeWhile_all {p : Char → Bool} :
    ∀ {s : Str}, (∀ a ∈ s, p a = true) → s.takeWhile p = s := by
  intro s
  induction s with
  | nil => intro _; rfl
  | cons a rest ih =>
    intro h
    rw [List.takeWhile_cons, if_pos (h a (by simp))]
    rw [ih (fun x hx => h x (by simp [hx]))]

lemma containsChar_iff {c : Char} {s : Str} : containsChar c s = true ↔ c ∈ s := by
  simp only [containsChar, List.any_eq_true, decide_eq_true_eq]
  constructor
  · rintro ⟨a, ha, rfl⟩
    exact ha
  · intro h
    exact ⟨c, h, rfl⟩

lemma containsChar_false {c : Char} {s : Str} (h : ¬ c ∈ s) :
    containsChar c s = false := by
  cases hb : containsChar c s with
  | false => rfl
  | true => exact absurd (containsChar_iff.mp hb) h

lemma splitFirst_append {c : Char} {a l r : Str} (b : Str)
    (h : splitFirst c a = some (l, r)) :
    splitFirst c (a ++ b) = some (l, r ++ b) := by
  induction a generalizing l r with
  | nil => simp [splitFirst] at h
  | cons x a' ih =>
    by_cases hx : x = c
    · rw [splitFirst, if_pos hx] at h
      injection h with h
      injection h with h1 h2
      subst h1; subst h2
      show splitFirst c (x :: (a' ++ b)) = _
      rw [splitFirst, if_pos hx]
    · rw [splitFirst, if_neg hx] at h
      show splitFirst c (x :: (a' ++ b)) = _
      rw [splitFirst, if_neg hx]
      cases h2 : splitFirst c a' with
      | none => rw [h2] at h; simp at h
      | some p =>
        rcases p with ⟨l2, r2⟩
        rw [h2] at h
        simp only [Option.some.injEq, Prod.mk.injEq] at h
        rw [ih h2]
        simp only [Option.some.injEq, Prod.mk.injEq]
        exact ⟨by rw [← h.1], by rw [h.2]⟩

lemma splitFirst_none {c : Char} {s : Str} (h : ¬ c ∈ s) :
    splitFirst c s = none := by
  induction s with
  | nil => rfl
  | cons a rest ih =>
    rw [splitFirst, if_neg (by intro hx; exact h (by simp [hx]))]
    rw [ih (by intro hx; exact h (by simp [hx]))]

lemma splitFirst_none_append {c : Char} {a b : Str} (ha : ¬ c ∈ a) (hb : ¬ c ∈ b) :
    splitFirst c (a ++ b) = none := by
  refine splitFirst_none ?_
  intro h
  rcases List.mem_append.mp h with h | h
  · exact ha h
  · exact hb h

lemma lastSeg_slash_append (a t : Str) : lastSeg ((a ++ ['/']) ++ t) = lastSeg t := by
  unfold lastSeg
  have hrev : ((a ++ ['/']) ++ t).reverse = t.reverse ++ '/' :: a.reverse := by
    simp
  rw [hrev, takeWhile_stop (by simp)]

lemma lastSeg_no_slash {s : Str} (h : containsChar '/' s = false) : lastSeg s = s := by
  unfold lastSeg
  rw [takeWhile_all, List.reverse_reverse]
  intro a ha
  simp only [ne_eq, decide_eq_true_eq]
  intro hx
  subst hx
  have ht : containsChar '/' s = true := containsChar_iff.mpr (by simpa using ha)
  rw [ht] at h
  exact Bool.noConfusion h

lemma splitParams_eq_self {path : Str} (h : containsChar ';' (lastSeg path) = false) :
    splitParams path = (path, []) := by
  by_cases h1 : containsChar ';' path = false
  · rw [splitParams, if_pos h1]
  · rw [splitParams, if_neg h1]
    by_cases h2 : containsChar '/' path = true
    · rw [if_pos h2]
      rw [splitFirst_none (fun hm => by
        rw [containsChar_iff.mpr hm] at h
        exact Bool.noConfusion h)]
    · rw [if_neg h2]
      rw [lastSeg_no_slash (by simpa using h2)] at h
      exact absurd h h1

lemma urlsplit_sanitize_canonical (t : Str) (ht : ¬ '\t' ∈ t) (hr : ¬ '\r' ∈ t)
    (hn : ¬ '\n' ∈ t) :
    removeUnsafe (lstripControl (canonicalPre ++ t)) = canonicalPre ++ t := by
  have h1 : lstripControl (canonicalPre ++ t) = canonicalPre ++ t := by
    rw [show canonicalPre ++ t
        = 'h' :: ("ttps://gameinformer.com/sites/default/files/styles/no_compression/public/".data ++ t)
        from rfl]
    unfold lstripControl
    rw [List.dropWhile_cons, if_neg (by decide)]
  rw [h1]
  unfold removeUnsafe
  refine List.filter_eq_self.mpr ?_
  intro a ha
  rcases List.mem_append.mp ha with h | h
  · exact (by decide : ∀ a ∈ canonicalPre, (!(a = '\t' || a = '\r' || a = '\n')) = true) a h
  · have h1 : a ≠ '\t' := fun hx => ht (hx ▸ h)
    have h2 : a ≠ '\r' := fun hx => hr (hx ▸ h)
    have h3 : a ≠ '\n' := fun hx => hn (hx ▸ h)
    simp [h1, h2, h3]

lemma urlsplit_canonical (t : Str) (hq : ¬ '?' ∈ t) (hh : ¬ '#' ∈ t)
    (ht : ¬ '\t' ∈ t) (hr : ¬ '\r' ∈ t) (hn : ¬ '\n' ∈ t) :
    urlsplit (canonicalPre ++ t) =
      ⟨"https".data, "gameinformer.com".data, publicMarkerStr ++ t, [], []⟩ := by
  have hsplit : splitFirst ':' (canonicalPre ++ t) =
      some ("https".data,
        "//gameinformer.com/sites/default/files/styles/no_compression/public/".data ++ t) :=
    splitFirst_append t (by rfl)
  have hnl : "//".data.isPrefixOf
      ("//gameinformer.com/sites/default/files/styles/no_compression/public/".data ++ t) = true := by
    refine prefixOf_eq.mpr (preExtend t ?_)
    decide
  have hassoc :
      "gameinformer.com/sites/default/files/styles/no_compression/public/".data ++ t
      = "gameinformer.com".data ++
        ('/' :: ("sites/default/files/styles/no_compression/public/".data ++ t)) := by
    rw [show "gameinformer.com/sites/default/files/styles/no_compression/public/".data
        = "gameinformer.com".data ++ ('/' :: "sites/default/files/styles/no_compression/public/".data) from rfl]
    rw [List.append_assoc]
    rfl
  have htk : ("gameinformer.com/sites/default/files/styles/no_compression/public/".data ++ t).takeWhile
      (fun c => !isNetlocEnd c) = "gameinformer.com".data := by
    rw [hassoc, takeWhile_stop (by rfl)]
    decide
  have hdw : ("gameinformer.com/sites/default/files/styles/no_compression/public/".data ++ t).dropWhile
      (fun c => !isNetlocEnd c) = publicMarkerStr ++ t := by
    rw [hassoc, dropWhile_stop (by rfl)]
    rfl
  have hfr : splitFirst '#' (publicMarkerStr ++ t) = none :=
    splitFirst_none_append (by decide) hh
  have hqr : splitFirst '?' (publicMarkerStr ++ t) = none :=
    splitFirst_none_append (by decide) hq
  unfold urlsplit parseScheme
  rw [urlsplit_sanitize_canonical t ht hr hn]
  rw [hsplit]
  simp only []
  rw [if_pos (by refine ⟨by decide, by decide, by decide⟩)]
  simp only []
  rw [if_pos hnl]
  have hdrop2 : ("//gameinformer.com/sites/default/files/styles/no_compression/public/".data ++ t).drop 2
      = "gameinformer.com/sites/default/files/styles/no_compression/public/".data ++ t := rfl
  rw [hdrop2, htk, hdw, hfr, hqr]
  rfl

lemma parsedPath_canonical (t : Str) (hq : ¬ '?' ∈ t) (hh : ¬ '#' ∈ t)
    (ht : ¬ '\t' ∈ t) (hr : ¬ '\r' ∈ t) (hn : ¬ '\n' ∈ t)
    (hsemi : containsChar ';' (lastSeg t) = false) :
    parsedPath (canonicalPre ++ t) = publicMarkerStr ++ t := by
  unfold parsedPath
  rw [urlsplit_canonical t hq hh ht hr hn]
  simp only []
  rw [if_pos (by decide)]
  have hlast : lastSeg (publicMarkerStr ++ t) = lastSeg t := by
    have : publicMarkerStr =
        "/sites/default/files/styles/no_compression/public".data ++ ['/'] := rfl
    rw [this]
    exact lastSeg_slash_append _ t
  rw [splitParams_eq_self (by rw [hlast]; exact hsemi)]

lemma not_infix_of_containsSeq_false {sep s : Str}
    (h : containsSeq sep s = false) : ¬ sep <:+: s := by
  intro hinf
  rw [containsSeq_iff_occ.mpr hinf] at h
  exact Bool.noConfusion h

lemma containsSeq_false_of_noOcc {sep s : Str}
    (h : ¬ sep <:+: s) : containsSeq sep s = false := by
  cases hb : containsSeq sep s with
  | false => rfl
  | true => exact absurd (containsSeq_iff_occ.mp hb) h

lemma stripImageExt_isPre (s : Str) : stripImageExt s <+: s := by
  unfold stripImageExt
  split_ifs <;> first | exact takePre _ _ | exact List.prefix_refl _

lemma marker_span_free : ∀ y : Str, y <:+ markerStr → y ≠ [] →
    ¬ y <+: ".jpg.webp".data := by
  have hdec : ∀ y ∈ markerStr.tails, y = [] ∨ ¬ y <+: ".jpg.webp".data := by decide
  intro y hy hne
  rcases hdec y (memTails.mpr hy) with h | h
  · exact absurd h hne
  · exact h

lemma normalizeExt_free {pa : Str} (h : ¬ markerStr <:+: pa) :
    ¬ markerStr <:+: normalizeExt pa ∧ ".jpg.webp".data <:+ normalizeExt pa := by
  have hb : ¬ markerStr <:+: ".jpg.webp".data :=
    not_infix_of_containsSeq_false (by decide)
  unfold normalizeExt
  split_ifs with h1 h2
  · exact ⟨h, suffixOf_eq.mp h1⟩
  · constructor
    · refine not_infix_append ?_ hb (fun y hy hne _ => marker_span_free y hy hne)
      intro hinf
      exact h (hinf.trans (isInfixOfPre (takePre _ _)))
    · exact ⟨pa.take (pa.length - 5), rfl⟩
  · constructor
    · refine not_infix_append ?_ hb (fun y hy hne _ => marker_span_free y hy hne)
      intro hinf
      exact h (hinf.trans (isInfixOfPre (stripImageExt_isPre pa)))
    · exact ⟨stripImageExt pa, rfl⟩

lemma hostPre_no_overlap : ∀ p : Str, p <:+ "https://gameinformer.com".data →
    p ≠ [] → ¬ p <+: publicMarkerStr ∧ ¬ publicMarkerStr <+: p := by
  have hdec : ∀ p ∈ ("https://gameinformer.com".data).tails,
      p = [] ∨ (¬ p <+: publicMarkerStr ∧ ¬ publicMarkerStr <+: p) := by decide
  intro p hp hne
  rcases hdec p (memTails.mpr hp) with h | h
  · exact absurd h hne
  · exact h

lemma normalize_url_eq_of_contains {u : Str}
    (h : containsSeq markerStr (parsedPath (resolveUrl u)) = true) :
    normalize_url u = canonicalPre ++ normalizeExt
      (if stylesPre.isPrefixOf (takeUntilChar '#' (takeUntilChar '?'
            (pySplitSnd markerStr (parsedPath (resolveUrl u)))))
       then (takeUntilChar '#' (takeUntilChar '?'
            (pySplitSnd markerStr (parsedPath (resolveUrl u))))).drop stylesPre.length
       else takeUntilChar '#' (takeUntilChar '?'
            (pySplitSnd markerStr (parsedPath (resolveUrl u))))) := by
  unfold normalize_url
  simp only [h, if_true]

lemma normalize_url_pass_of_not_contains {u : Str}
    (h : containsSeq markerStr (parsedPath (resolveUrl u)) = false) :
    normalize_url u = resolveUrl u := by
  unfold normalize_url
  simp only [h, Bool.false_eq_true, if_false]

lemma countSeq_publicMarker_result (w : Str) (hfree : ¬ markerStr <:+: w) :
    countSeq publicMarkerStr (canonicalPre ++ w) = 1 := by
  have hw : ¬ publicMarkerStr <:+: w := by
    intro hinf
    exact hfree ((isInfixOfPre (by decide : markerStr <+: publicMarkerStr)).trans hinf)
  have hsplit : canonicalPre ++ w =
      "https://gameinformer.com".data ++ (publicMarkerStr ++ w) := by
    rw [show canonicalPre = "https://gameinformer.com".data ++ publicMarkerStr from rfl,
      List.append_assoc]
  rw [hsplit, countSeq_prepend hostPre_no_overlap,
    countSeq_self_append (by decide),
    countSeq_zero_of_free (containsSeq_false_of_noOcc hw)]

/-! ### Claim C1 -/

/-- Claim C1, as stated, is false on the code: the raw URL
`/sites/default/files/../x.png` has a path containing the marker
`/sites/default/files/`, yet `normalize_url` resolves the `..` segment
during `urljoin`, loses the marker, and passes the URL through: the result
`https://gameinformer.com/sites/default/x.png` does not end in `.jpg.webp`
and does not contain the canonical prefix at all. -/
theorem normalize_url_marker_path_counterexample :
    containsSeq markerStr (parsedPath "/sites/default/files/../x.png".data) = true ∧
    normalize_url "/sites/default/files/../x.png".data
      = "https://gameinformer.com/sites/default/x.png".data ∧
    ".jpg.webp".data.isSuffixOf
      (normalize_url "/sites/default/files/../x.png".data) = false ∧
    countSeq publicMarkerStr
      (normalize_url "/sites/default/files/../x.png".data) = 0 := by
  refine ⟨by decide, by decide, by decide, by decide⟩

/-- Claim C1 (amended): for every raw URL string for which the path
actually inspected by `normalize_url` — the parsed path of the URL after
the optional resolution against the base host — contains the marker
`/sites/default/files/`, the result always ends in `.jpg.webp`, contains
the substring `/sites/default/files/styles/no_compression/public/`
exactly once, and is an absolute `https://` URL. -/
theorem normalize_url_marker_invariants (u : Str)
    (h : containsSeq markerStr (parsedPath (resolveUrl u)) = true) :
    ".jpg.webp".data.isSuffixOf (normalize_url u) = true ∧
    countSeq publicMarkerStr (normalize_url u) = 1 ∧
    "https://".data.isPrefixOf (normalize_url u) = true := by
  rw [normalize_url_eq_of_contains h]
  have hfree0 : ¬ markerStr <:+: pySplitSnd markerStr (parsedPath (resolveUrl u)) :=
    not_infix_of_containsSeq_false (takeUntilSep_free (by decide) _)
  have hfree1 : ¬ markerStr <:+: takeUntilChar '#' (takeUntilChar '?'
      (pySplitSnd markerStr (parsedPath (resolveUrl u)))) := by
    intro hinf
    apply hfree0
    exact hinf.trans (isInfixOfPre ((takeWhilePre _ _).trans (takeWhilePre _ _)))
  have hfree2 : ¬ markerStr <:+:
      (if stylesPre.isPrefixOf (takeUntilChar '#' (takeUntilChar '?'
            (pySplitSnd markerStr (parsedPath (resolveUrl u)))))
       then (takeUntilChar '#' (takeUntilChar '?'
            (pySplitSnd markerStr (parsedPath (resolveUrl u))))).drop stylesPre.length
       else takeUntilChar '#' (takeUntilChar '?'
            (pySplitSnd markerStr (parsedPath (resolveUrl u))))) := by
    split_ifs with hs
    · intro hinf
      exact hfree1 (hinf.trans (isInfixOfSuf (dropSuf _ _)))
    · exact hfree1
  obtain ⟨hfree3, hsuf3⟩ := normalizeExt_free hfree2
  refine ⟨?_, ?_, ?_⟩
  · exact suffixOf_eq.mpr (sufExtend canonicalPre hsuf3)
  · exact countSeq_publicMarker_result _ hfree3
  · exact prefixOf_eq.mpr (preExtend _ (by decide))

/-- Witness for C1's amended theorem at the concrete input
`/sites/default/files/2023/06/cover1.png`. -/
theorem normalize_url_marker_invariants_witness :
    containsSeq markerStr
      (parsedPath (resolveUrl "/sites/default/files/2023/06/cover1.png".data)) = true ∧
    (".jpg.webp".data.isSuffixOf
        (normalize_url "/sites/default/files/2023/06/cover1.png".data) = true ∧
     countSeq publicMarkerStr
        (normalize_url "/sites/default/files/2023/06/cover1.png".data) = 1 ∧
     "https://".data.isPrefixOf
        (normalize_url "/sites/default/files/2023/06/cover1.png".data) = true) :=
  ⟨by decide, normalize_url_marker_invariants _ (by decide)⟩

lemma canonical_fixpoint_aux (t : Str)
    (hsuffix : ".jpg.webp".data.isSuffixOf t = true)
    (hq : ¬ '?' ∈ t) (hh : ¬ '#' ∈ t)
    (ht : ¬ '\t' ∈ t) (hr : ¬ '\r' ∈ t) (hn : ¬ '\n' ∈ t)
    (hsemi : containsChar ';' (lastSeg t) = false)
    (hm : containsSeq markerStr (stylesPre ++ t) = false) :
    normalize_url (canonicalPre ++ t) = canonicalPre ++ t := by
  have hres : resolveUrl (canonicalPre ++ t) = canonicalPre ++ t := by
    unfold resolveUrl
    rw [if_pos (prefixOf_eq.mpr (preExtend t (by decide)))]
  have hpath : parsedPath (resolveUrl (canonicalPre ++ t)) = publicMarkerStr ++ t := by
    rw [hres]
    exact parsedPath_canonical t hq hh ht hr hn hsemi
  have hassoc : publicMarkerStr ++ t = markerStr ++ (stylesPre ++ t) := by
    rw [show publicMarkerStr = markerStr ++ stylesPre from rfl, List.append_assoc]
  have hcontains : containsSeq markerStr (parsedPath (resolveUrl (canonicalPre ++ t))) = true := by
    rw [hpath, hassoc]
    exact containsSeq_iff_occ.mpr (isInfixOfPre ⟨stylesPre ++ t, rfl⟩)
  rw [normalize_url_eq_of_contains hcontains]
  have hsplit : pySplitSnd markerStr (parsedPath (resolveUrl (canonicalPre ++ t)))
      = stylesPre ++ t := by
    rw [hpath, hassoc]
    unfold pySplitSnd
    rw [dropThroughFirst_self (by decide), takeUntilSep_eq_self hm]
  rw [hsplit]
  have hq1 : takeUntilChar '?' (stylesPre ++ t) = stylesPre ++ t := by
    unfold takeUntilChar
    refine takeWhile_all ?_
    intro a ha
    simp only [ne_eq, decide_eq_true_eq]
    intro hx
    subst hx
    rcases List.mem_append.mp ha with h | h
    · exact absurd h (by decide)
    · exact hq h
  have hh1 : takeUntilChar '#' (stylesPre ++ t) = stylesPre ++ t := by
    unfold takeUntilChar
    refine takeWhile_all ?_
    intro a ha
    simp only [ne_eq, decide_eq_true_eq]
    intro hx
    subst hx
    rcases List.mem_append.mp ha with h | h
    · exact absurd h (by decide)
    · exact hh h
  rw [hq1, hh1]
  rw [if_pos (prefixOf_eq.mpr ⟨t, rfl⟩)]
  rw [dropLen rfl]
  unfold normalizeExt
  rw [if_pos hsuffix]

/-! ### Claim C2 -/

/-- Claim C2, as stated, is false on the code: the URL
`https://gameinformer.com/sites/default/files/styles/no_compression/public/sites/default/files/x.jpg.webp`
is in canonical form exactly as the spec defines it (absolute, under the
canonical prefix, ending in `.jpg.webp`), yet `normalize_url` does not fix
it: the second `/sites/default/files/` occurrence truncates the
`split`-chunk, producing
`.../public/styles/no_compression/public.jpg.webp`.  A second instance:
a canonical-form URL with a tab in the tail is also no fixpoint, because
`urlsplit`'s WHATWG sanitization deletes the tab before parsing. -/
theorem normalize_url_canonical_not_fixpoint :
    (isCanonicalSpec
      "https://gameinformer.com/sites/default/files/styles/no_compression/public/sites/default/files/x.jpg.webp".data = true ∧
    normalize_url
      "https://gameinformer.com/sites/default/files/styles/no_compression/public/sites/default/files/x.jpg.webp".data ≠
      "https://gameinformer.com/sites/default/files/styles/no_compression/public/sites/default/files/x.jpg.webp".data) ∧
    (isCanonicalSpec (canonicalPre ++ "a\tb.jpg.webp".data) = true ∧
    normalize_url (canonicalPre ++ "a\tb.jpg.webp".data)
      = canonicalPre ++ "ab.jpg.webp".data ∧
    normalize_url (canonicalPre ++ "a\tb.jpg.webp".data)
      ≠ canonicalPre ++ "a\tb.jpg.webp".data) :=
  ⟨⟨by decide, by decide⟩, ⟨by decide, by decide, by decide⟩⟩

/-- Claim C2 (amended): `normalize_url` fixes every URL of the canonical
shape `canonicalPre ++ t` with `t` ending in `.jpg.webp`, provided the
tail `t` is free of `?` and `#`, free of the tab/CR/LF characters that
`urlsplit`'s WHATWG sanitization would delete, has no `;` in its final
`/`-segment, and produces no occurrence of the marker
`/sites/default/files/` after the `styles/no_compression/public/`
prefix; for all such URLs
`normalize_url (normalize_url u) = normalize_url u` as well.  (All outputs
of `normalize_url` on marker-free, control-character-free inputs have
this shape; each extra condition is forced by a counterexample — the one
above for the marker, and the `?`/`#`/`;`/tab variants, e.g.
`canonicalPre ++ "a\tb.jpg.webp"`, where the program deletes the tab and
returns a different string.) -/
theorem normalize_url_canonical_fixpoint (t : Str)
    (hsuffix : ".jpg.webp".data.isSuffixOf t = true)
    (hq : ¬ '?' ∈ t) (hh : ¬ '#' ∈ t)
    (ht : ¬ '\t' ∈ t) (hr : ¬ '\r' ∈ t) (hn : ¬ '\n' ∈ t)
    (hsemi : containsChar ';' (lastSeg t) = false)
    (hm : containsSeq markerStr (stylesPre ++ t) = false) :
    normalize_url (canonicalPre ++ t) = canonicalPre ++ t ∧
    normalize_url (normalize_url (canonicalPre ++ t))
      = normalize_url (canonicalPre ++ t) := by
  have h1 := canonical_fixpoint_aux t hsuffix hq hh ht hr hn hsemi hm
  exact ⟨h1, by rw [h1]; exact h1⟩

/-- Witness for C2's amended theorem at the concrete canonical URL
`https://gameinformer.com/sites/default/files/styles/no_compression/public/2023/06/cover1.jpg.webp`. -/
theorem normalize_url_canonical_fixpoint_witness :
    normalize_url (canonicalPre ++ "2023/06/cover1.jpg.webp".data)
      = canonicalPre ++ "2023/06/cover1.jpg.webp".data ∧
    normalize_url (normalize_url (canonicalPre ++ "2023/06/cover1.jpg.webp".data))
      = normalize_url (canonicalPre ++ "2023/06/cover1.jpg.webp".data) :=
  normalize_url_canonical_fixpoint "2023/06/cover1.jpg.webp".data
    (by decide) (by decide) (by decide) (by decide) (by decide) (by decide)
    (by decide) (by decide)

/-! ### Suffix arithmetic over appended extensions -/

lemma takeAppendAdd (b e : Str) (k : Nat) :
    (b ++ e).take (b.length + k) = b ++ e.take k := by
  induction b with
  | nil => simp
  | cons c b' ih =>
    show (c :: (b' ++ e)).take (b'.length + 1 + k) = _
    rw [show b'.length + 1 + k = (b'.length + k) + 1 from by omega]
    rw [List.take_succ_cons, ih]
    rfl

lemma suffix_append_short {s e : Str} (b : Str) (hle : s.length ≤ e.length) :
    s <:+ b ++ e ↔ s <:+ e := by
  constructor
  · intro h
    rcases List.suffix_or_suffix_of_suffix h (List.suffix_append b e) with h1 | h1
    · exact h1
    · rw [h1.eq_of_length_le hle]
  · exact sufExtend b

lemma suffix_append_long {s e : Str} (b : Str) (hgt : e.length < s.length) :
    s <:+ b ++ e ↔ ∃ s1 : Str, s = s1 ++ e ∧ s1 ≠ [] ∧ s1 <:+ b := by
  constructor
  · intro h
    have he : e <:+ s := by
      rcases List.suffix_or_suffix_of_suffix h (List.suffix_append b e) with h1 | h1
      · exact absurd h1.length_le (by omega)
      · exact h1
    rcases he with ⟨s1, hs1⟩
    refine ⟨s1, hs1.symm, ?_, ?_⟩
    · intro hnil
      rw [hnil, List.nil_append] at hs1
      have := congrArg List.length hs1
      omega
    · rcases h with ⟨pre, hpre⟩
      rw [← hs1, ← List.append_assoc] at hpre
      exact ⟨pre, List.append_cancel_right hpre⟩
  · rintro ⟨s1, rfl, _, ⟨pre, hpre⟩⟩
    exact ⟨pre, by rw [← List.append_assoc, hpre]⟩

lemma sufOf_append_short {suf e : Str} (b : Str) (h : suf.length ≤ e.length) :
    suf.isSuffixOf (b ++ e) = suf.isSuffixOf e := by
  cases hb : suf.isSuffixOf e with
  | true => exact suffixOf_eq.mpr ((suffix_append_short b h).mpr (suffixOf_eq.mp hb))
  | false =>
    cases hc : suf.isSuffixOf (b ++ e) with
    | false => rfl
    | true =>
      rw [← hb]
      exact absurd (suffixOf_eq.mpr ((suffix_append_short b h).mp (suffixOf_eq.mp hc)))
        (by rw [hb]; exact Bool.noConfusion)

lemma sufOf_append_long_false {suf e : Str} (b : Str) (hlen : e.length < suf.length)
    (hne : ∀ s1 : Str, suf ≠ s1 ++ e) :
    suf.isSuffixOf (b ++ e) = false := by
  cases hc : suf.isSuffixOf (b ++ e) with
  | false => rfl
  | true =>
    exfalso
    rcases (suffix_append_long b hlen).mp (suffixOf_eq.mp hc) with ⟨s1, heq, _, _⟩
    exact hne s1 heq

/-! ### Claim C3 -/

/-- Claim C3: the two concrete normalization scenarios.  The relative href
`/sites/default/files/2023/06/cover1.png` normalizes to the canonical
`cover1.jpg.webp` URL, and the already-prefixed
`.../styles/no_compression/public/2023/06/cover2.webp` normalizes to
`cover2.jpg.webp` under the same prefix, which occurs exactly once
(no doubled prefix). -/
theorem normalize_url_concrete_scenarios :
    normalize_url "/sites/default/files/2023/06/cover1.png".data
      = "https://gameinformer.com/sites/default/files/styles/no_compression/public/2023/06/cover1.jpg.webp".data ∧
    normalize_url "https://gameinformer.com/sites/default/files/styles/no_compression/public/2023/06/cover2.webp".data
      = "https://gameinformer.com/sites/default/files/styles/no_compression/public/2023/06/cover2.jpg.webp".data ∧
    countSeq publicMarkerStr
      (normalize_url "https://gameinformer.com/sites/default/files/styles/no_compression/public/2023/06/cover2.webp".data) = 1 :=
  ⟨by decide, by decide, by decide⟩

/-! ### Claim C5 -/

/-- Claim C5, as stated, is false on the code: the relative href
`/foo.png` has no `/sites/default/files/` marker in its path, but
`normalize_url` does not return it unchanged — it returns the
base-resolved URL `https://gameinformer.com/foo.png`. -/
theorem normalize_url_passthrough_counterexample :
    (containsSeq markerStr (parsedPath "/foo.png".data) = false ∧
    containsSeq markerStr (parsedPath (resolveUrl "/foo.png".data)) = false ∧
    normalize_url "/foo.png".data ≠ "/foo.png".data ∧
    normalize_url "/foo.png".data = "https://gameinformer.com/foo.png".data) ∧
    (containsSeq markerStr (parsedPath "http://[".data) = false ∧
    invalidIPv6 "http://[".data = true) :=
  ⟨⟨by decide, by decide, by decide, by decide⟩, ⟨by decide, by decide⟩⟩

/-- Claim C5 (amended): for every URL on which the two parses performed
by `normalize_url` (of the raw string, and of its base-resolved form)
stay inside `urlsplit`'s exception-free domain — no square bracket in
the netloc and an ASCII netloc, `urlsplitSafe` — and whose parsed path
(after the optional base resolution) does not contain the marker
`/sites/default/files/`, `normalize_url` raises nothing and returns the
base-resolved URL unchanged — in particular any such `http`-prefixed
URL, e.g. `https://other.example.com/img.jpg`, is returned exactly as
given.  Outside that domain the program can raise: `normalize_url`
applied to `http://[` hits `urlsplit`'s
`ValueError("Invalid IPv6 URL")` (the `invalidIPv6` conjunct), so the
original "never raises" does not hold unqualified. -/
theorem normalize_url_passthrough :
    (∀ u : Str,
      urlsplitSafe u = true → urlsplitSafe (resolveUrl u) = true →
      containsSeq markerStr (parsedPath (resolveUrl u)) = false →
      normalize_url u = resolveUrl u ∧
      ("http".data.isPrefixOf u = true → normalize_url u = u)) ∧
    invalidIPv6 "http://[".data = true ∧
    urlsplitSafe "https://other.example.com/img.jpg".data = true ∧
    normalize_url "https://other.example.com/img.jpg".data
      = "https://other.example.com/img.jpg".data := by
  refine ⟨?_, by decide, by decide, by decide⟩
  intro u _ _ h
  have h1 := normalize_url_pass_of_not_contains h
  refine ⟨h1, ?_⟩
  intro hp
  rw [h1]
  unfold resolveUrl
  rw [if_pos hp]

/-- Witness for C5's amended theorem at the concrete input
`https://other.example.com/img.jpg`. -/
theorem normalize_url_passthrough_witness :
    normalize_url "https://other.example.com/img.jpg".data
      = resolveUrl "https://other.example.com/img.jpg".data ∧
    normalize_url "https://other.example.com/img.jpg".data
      = "https://other.example.com/img.jpg".data :=
  ⟨(normalize_url_passthrough.1 _ (by decide) (by decide) (by decide)).1,
   (normalize_url_passthrough.1 _ (by decide) (by decide) (by decide)).2 (by decide)⟩

/-! ### Claim C9 -/

/-- Claim C9: `normalize_url` decides absolute vs. relative by the string
test `startswith('http')` alone.  Any input starting with the four
characters `http` — including `httpx-foo`, which is no URL at all — is
never resolved against the base host, while every other input is passed
through `urljoin('https://gameinformer.com', ...)` before the marker
check: a protocol-relative `//cdn.example.com/...` href is resolved (and
then normalized onto the gameinformer.com host), while a different-scheme
URL such as `ftp://x/img.jpg` comes back from `urljoin` unchanged. -/
theorem normalize_url_http_prefix_dispatch :
    (∀ u : Str, "http".data.isPrefixOf u = true → resolveUrl u = u) ∧
    (∀ u : Str, "http".data.isPrefixOf u = false → resolveUrl u = urljoinBase u) ∧
    normalize_url "httpx-foo".data = "httpx-foo".data ∧
    urljoinBase "//cdn.example.com/sites/default/files/a.png".data
      = "https://cdn.example.com/sites/default/files/a.png".data ∧
    normalize_url "//cdn.example.com/sites/default/files/a.png".data
      = canonicalPre ++ "a.jpg.webp".data ∧
    urljoinBase "ftp://x/img.jpg".data = "ftp://x/img.jpg".data ∧
    normalize_url "ftp://x/img.jpg".data = "ftp://x/img.jpg".data := by
  refine ⟨?_, ?_, by decide, by decide, by decide, by decide, by decide⟩
  · intro u hp
    unfold resolveUrl
    rw [if_pos hp]
  · intro u hp
    unfold resolveUrl
    rw [if_neg (by simp [hp])]

/-- Witness for C9's theorem: the dispatch conjuncts applied at `httpx-foo`
(which starts with `http`) and at `/a.png` (which does not). -/
theorem normalize_url_http_prefix_dispatch_witness :
    resolveUrl "httpx-foo".data = "httpx-foo".data ∧
    resolveUrl "/a.png".data = urljoinBase "/a.png".data :=
  ⟨normalize_url_http_prefix_dispatch.1 _ (by decide),
   normalize_url_http_prefix_dispatch.2.1 _ (by decide)⟩

/-! ### Claim C10 -/

/-- Claim C10: the `.jpg.webp` and `.webp` suffix tests of `normalize_url`
(lines 44-49) are case-sensitive.  For every chunk `b`, the chunk
`b ++ ".JPG.webp"` is not recognized as already normalized: its
case-sensitive `.webp` suffix is collapsed to give `b ++ ".JPG.jpg.webp"`,
whereas `b ++ ".jpg.webp"` is left unchanged; concretely,
`.../files/foo.JPG.webp` normalizes to `...foo.JPG.jpg.webp` while
`.../files/foo.jpg.webp` stays `...foo.jpg.webp`. -/
theorem normalize_url_suffix_case_sensitive :
    (∀ b : Str, normalizeExt (b ++ ".JPG.webp".data) = b ++ ".JPG.jpg.webp".data) ∧
    (∀ b : Str, normalizeExt (b ++ ".jpg.webp".data) = b ++ ".jpg.webp".data) ∧
    normalize_url "https://gameinformer.com/sites/default/files/foo.JPG.webp".data
      = canonicalPre ++ "foo.JPG.jpg.webp".data ∧
    normalize_url "https://gameinformer.com/sites/default/files/foo.jpg.webp".data
      = canonicalPre ++ "foo.jpg.webp".data := by
  refine ⟨?_, ?_, by decide, by decide⟩
  · intro b
    unfold normalizeExt
    have h1 : ".jpg.webp".data.isSuffixOf (b ++ ".JPG.webp".data) = false := by
      rw [sufOf_append_short b (by decide)]
      decide
    have h2 : ".webp".data.isSuffixOf (b ++ ".JPG.webp".data) = true :=
      suffixOf_eq.mpr (sufExtend b (by decide))
    rw [h1, h2]
    simp only [Bool.false_eq_true, if_false, if_true]
    have hlen : (".JPG.webp".data : Str).length = 9 := rfl
    have h3 : (b ++ ".JPG.webp".data).length - 5 = b.length + 4 := by
      rw [List.length_append, hlen]
      omega
    rw [h3, takeAppendAdd, List.append_assoc]
    rfl
  · intro b
    unfold normalizeExt
    rw [if_pos (suffixOf_eq.mpr (sufExtend b (List.suffix_refl _)))]

lemma ne_concat_of_not_suffix {suf E : Str} (h : ¬ E <:+ suf) :
    ∀ s1 : Str, suf ≠ s1 ++ E := by
  intro s1 heq
  exact h ⟨s1, heq.symm⟩

lemma ext_ne_concat {suf ext E : Str} (hE : ext.map Char.toLower = E)
    (hd : (suf.drop (suf.length - E.length)).map Char.toLower ≠ E) :
    ∀ s1 : Str, suf ≠ s1 ++ ext := by
  intro s1 heq
  have hlext : ext.length = E.length := by
    rw [← hE, List.length_map]
  have hlen2 : (s1 ++ ext).length - E.length = s1.length := by
    rw [List.length_append]
    omega
  apply hd
  rw [heq, hlen2, dropLen rfl, hE]

lemma sufOf_eq_length_false {suf ext : Str} (h : suf.length = ext.length)
    (hne : ext ≠ suf) : suf.isSuffixOf ext = false := by
  cases hb : suf.isSuffixOf ext with
  | false => rfl
  | true =>
    exfalso
    exact hne ((suffixOf_eq.mp hb).eq_of_length h).symm

lemma lowerEnds_append {suf b ext E : Str} (hE : ext.map Char.toLower = E) :
    lowerEnds suf (b ++ ext) = suf.isSuffixOf (b.map Char.toLower ++ E) := by
  unfold lowerEnds
  rw [List.map_append, hE]

lemma stripImageExt_append_class {b ext E : Str} (hE : ext.map Char.toLower = E)
    (hclass : E = ".jpg".data ∨ E = ".jpeg".data ∨ E = ".png".data ∨ E = ".webp".data) :
    stripImageExt (b ++ ext) = b := by
  have hlext : ext.length = E.length := by
    rw [← hE, List.length_map]
  unfold stripImageExt
  rcases hclass with rfl | rfl | rfl | rfl
  · have c1 : lowerEnds ".jpeg".data (b ++ ext) = false := by
      rw [lowerEnds_append hE]
      exact sufOf_append_long_false _ (by decide) (ne_concat_of_not_suffix (by decide))
    have c2 : lowerEnds ".jpg".data (b ++ ext) = true := by
      rw [lowerEnds_append hE]
      exact suffixOf_eq.mpr (sufExtend _ (List.suffix_refl _))
    rw [c1, c2]
    simp only [Bool.false_eq_true, if_false, if_true]
    exact takeLen (by rw [List.length_append, hlext]; rfl)
  · have c1 : lowerEnds ".jpeg".data (b ++ ext) = true := by
      rw [lowerEnds_append hE]
      exact suffixOf_eq.mpr (sufExtend _ (List.suffix_refl _))
    rw [c1]
    simp only [if_true]
    exact takeLen (by rw [List.length_append, hlext]; rfl)
  · have c1 : lowerEnds ".jpeg".data (b ++ ext) = false := by
      rw [lowerEnds_append hE]
      exact sufOf_append_long_false _ (by decide) (ne_concat_of_not_suffix (by decide))
    have c2 : lowerEnds ".jpg".data (b ++ ext) = false := by
      rw [lowerEnds_append hE, sufOf_append_short _ (by decide)]
      decide
    have c3 : lowerEnds ".png".data (b ++ ext) = true := by
      rw [lowerEnds_append hE]
      exact suffixOf_eq.mpr (sufExtend _ (List.suffix_refl _))
    rw [c1, c2, c3]
    simp only [Bool.false_eq_true, if_false, if_true]
    exact takeLen (by rw [List.length_append, hlext]; rfl)
  · have c1 : lowerEnds ".jpeg".data (b ++ ext) = false := by
      rw [lowerEnds_append hE, sufOf_append_short _ (by decide)]
      decide
    have c2 : lowerEnds ".jpg".data (b ++ ext) = false := by
      rw [lowerEnds_append hE, sufOf_append_short _ (by decide)]
      decide
    have c3 : lowerEnds ".png".data (b ++ ext) = false := by
      rw [lowerEnds_append hE, sufOf_append_short _ (by decide)]
      decide
    have c4 : lowerEnds ".webp".data (b ++ ext) = true := by
      rw [lowerEnds_append hE]
      exact suffixOf_eq.mpr (sufExtend _ (List.suffix_refl _))
    rw [c1, c2, c3, c4]
    simp only [Bool.false_eq_true, if_false, if_true]
    exact takeLen (by rw [List.length_append, hlext]; rfl)

/-! ### Claim C4 -/

/-- Claim C4: extension normalization is case-insensitive.  For every
chunk `b` and every extension `ext` whose lowercasing is `.jpg`, `.jpeg`,
`.png` or `.webp`, as long as the combined chunk does not already end in
`.jpg.webp` (in which case line 44 keeps it unchanged), the trailing
extension is recognized and stripped and the result is
`b ++ ".jpg.webp"`; concretely `foo.PNG`, `foo.png` and `foo.Png` all
normalize to `foo.jpg.webp`. -/
theorem normalizeExt_case_insensitive :
    (∀ b ext : Str,
      (ext.map Char.toLower = ".jpg".data ∨ ext.map Char.toLower = ".jpeg".data ∨
       ext.map Char.toLower = ".png".data ∨ ext.map Char.toLower = ".webp".data) →
      ".jpg.webp".data.isSuffixOf (b ++ ext) = false →
      normalizeExt (b ++ ext) = b ++ ".jpg.webp".data) ∧
    normalize_url "https://gameinformer.com/sites/default/files/foo.PNG".data
      = canonicalPre ++ "foo.jpg.webp".data ∧
    normalize_url "https://gameinformer.com/sites/default/files/foo.png".data
      = canonicalPre ++ "foo.jpg.webp".data ∧
    normalize_url "https://gameinformer.com/sites/default/files/foo.Png".data
      = canonicalPre ++ "foo.jpg.webp".data := by
  refine ⟨?_, by decide, by decide, by decide⟩
  intro b ext hcl h9
  unfold normalizeExt
  rw [h9]
  simp only [Bool.false_eq_true, if_false]
  have h5 : (".webp".data : Str).length = 5 := rfl
  rcases hcl with hE | hE | hE | hE
  · have hlext : ext.length = 4 := by
      have := congrArg List.length hE
      rw [List.length_map] at this
      exact this
    have hwf : ".webp".data.isSuffixOf (b ++ ext) = false :=
      sufOf_append_long_false b (by omega) (ext_ne_concat hE (by decide))
    rw [hwf]
    simp only [Bool.false_eq_true, if_false]
    rw [stripImageExt_append_class hE (Or.inl rfl)]
  · have hlext : ext.length = 5 := by
      have := congrArg List.length hE
      rw [List.length_map] at this
      exact this
    have hwe : ext ≠ ".webp".data := by
      intro hx
      rw [hx] at hE
      exact absurd hE (by decide)
    have hwf : ".webp".data.isSuffixOf (b ++ ext) = false := by
      rw [sufOf_append_short b (by omega)]
      exact sufOf_eq_length_false (by omega) hwe
    rw [hwf]
    simp only [Bool.false_eq_true, if_false]
    rw [stripImageExt_append_class hE (Or.inr (Or.inl rfl))]
  · have hlext : ext.length = 4 := by
      have := congrArg List.length hE
      rw [List.length_map] at this
      exact this
    have hwf : ".webp".data.isSuffixOf (b ++ ext) = false :=
      sufOf_append_long_false b (by omega) (ext_ne_concat hE (by decide))
    rw [hwf]
    simp only [Bool.false_eq_true, if_false]
    rw [stripImageExt_append_class hE (Or.inr (Or.inr (Or.inl rfl)))]
  · by_cases hwe : ext = ".webp".data
    · subst hwe
      rw [show ".webp".data.isSuffixOf (b ++ ".webp".data) = true from
        suffixOf_eq.mpr (sufExtend b (List.suffix_refl _))]
      simp only [if_true]
      rw [takeLen (a := b) (by rw [List.length_append]; rfl)]
    · have hlext : ext.length = 5 := by
        have := congrArg List.length hE
        rw [List.length_map] at this
        exact this
      have hwf : ".webp".data.isSuffixOf (b ++ ext) = false := by
        rw [sufOf_append_short b (by omega)]
        exact sufOf_eq_length_false (by omega) hwe
      rw [hwf]
      simp only [Bool.false_eq_true, if_false]
      rw [stripImageExt_append_class hE (Or.inr (Or.inr (Or.inr rfl)))]

/-- Witness for C4's theorem: the general conjunct applied at `foo` with
the uppercase extension `.PNG`. -/
theorem normalizeExt_case_insensitive_witness :
    normalizeExt ("foo".data ++ ".PNG".data) = "foo".data ++ ".jpg.webp".data :=
  normalizeExt_case_insensitive.1 "foo".data ".PNG".data
    (Or.inr (Or.inr (Or.inl (by decide)))) (by decide)

/-! ### Claim C6 -/

lemma dedupAux_eq : ∀ l seen : List Str,
    dedupAux seen l = firstSeenSpec (l.filter (fun x => decide (¬ x ∈ seen))) := by
  intro l
  induction l with
  | nil =>
    intro seen
    simp only [List.filter_nil]
    rw [show dedupAux seen [] = [] from rfl, firstSeenSpec]
  | cons u rest ih =>
    intro seen
    by_cases hu : u ∈ seen
    · show (if u ∈ seen then dedupAux seen rest else _) = _
      rw [if_pos hu, List.filter_cons, if_neg (by simp [hu])]
      exact ih seen
    · show (if u ∈ seen then _ else u :: dedupAux (u :: seen) rest) = _
      rw [if_neg hu, List.filter_cons, if_pos (by simp [hu])]
      rw [firstSeenSpec]
      congr 1
      rw [List.filter_filter]
      rw [ih (u :: seen)]
      congr 1
      refine List.filter_congr ?_
      intro x _
      by_cases hx1 : x = u
      · simp [hx1]
      · by_cases hx2 : x ∈ seen
        · simp [hx1, hx2]
        · simp [hx1, hx2]

lemma firstSeenSpec_sublist : ∀ l : List Str, (firstSeenSpec l).Sublist l := by
  intro l
  induction l using firstSeenSpec.induct with
  | case1 =>
    rw [firstSeenSpec]
  | case2 a l ih =>
    rw [firstSeenSpec]
    exact List.Sublist.cons₂ a (ih.trans (List.filter_sublist l))

lemma firstSeenSpec_nodup : ∀ l : List Str, (firstSeenSpec l).Nodup := by
  intro l
  induction l using firstSeenSpec.induct with
  | case1 =>
    rw [firstSeenSpec]
    exact List.nodup_nil
  | case2 a l ih =>
    rw [firstSeenSpec]
    refine List.nodup_cons.mpr ⟨?_, ih⟩
    intro hmem
    have := (firstSeenSpec_sublist _).subset hmem
    have := List.of_mem_filter this
    simp at this

/-- Claim C6: the dedup loop of `main` keeps exactly the first occurrence
of each distinct value, in insertion order: it agrees with the
specification-side `firstSeenSpec` (keep the head, delete its later
duplicates, recurse), its output is an order-preserving sublist of the
input with no duplicates left, and `[A, B, A, C]` yields `[A, B, C]`. -/
theorem dedup_first_seen :
    (∀ l : List Str,
      dedup l = firstSeenSpec l ∧ (dedup l).Sublist l ∧ (dedup l).Nodup) ∧
    dedup ["A".data, "B".data, "A".data, "C".data]
      = ["A".data, "B".data, "C".data] := by
  have hmain : ∀ l : List Str, dedup l = firstSeenSpec l := by
    intro l
    show dedupAux [] l = _
    rw [dedupAux_eq l []]
    congr 1
    refine List.filter_eq_self.mpr ?_
    intro a _
    simp
  refine ⟨?_, by decide⟩
  intro l
  refine ⟨hmain l, ?_, ?_⟩
  · rw [hmain l]
    exact firstSeenSpec_sublist l
  · rw [hmain l]
    exact firstSeenSpec_nodup l

/-! ### Claim C7 -/

/-- Claim C7: the skip rule.  If the derived filename already exists in
the output directory, `download_image` performs zero network calls,
leaves the directory contents unchanged, prints the skip report, and
returns success; likewise the driving loop of `main` short-circuits on
its own existence check, only incrementing `skip_count` and issuing no
network call for that URL. -/
theorem download_skip_rule :
    (∀ (fetch : Str → Option Str) (files : List Str) (url : Str),
      derivedFilename url ∈ files →
      download_image fetch files url = ⟨files, true, 0, true⟩) ∧
    (∀ (fetch : Str → Option Str) (files : List Str) (url : Str) (rest : List Str),
      pyBasename (parsedPath url) ∈ files →
      runDownloads fetch files (url :: rest) =
        ⟨(runDownloads fetch files rest).files,
         (runDownloads fetch files rest).successCount,
         (runDownloads fetch files rest).skipCount + 1,
         (runDownloads fetch files rest).netCalls⟩) := by
  constructor
  · intro fetch files url h
    unfold download_image
    rw [if_pos (Or.inr (Or.inr (Or.inr h)))]
  · intro fetch files url rest h
    show (if pathExists files (pyBasename (parsedPath url)) then _ else _) = _
    rw [if_pos (Or.inr (Or.inr (Or.inr h)))]

/-- Witness for C7's theorem: skipping the canonical `cover1.jpg.webp`
URL when that file is already present. -/
theorem download_skip_rule_witness :
    download_image (fun _ => none) ["cover1.jpg.webp".data]
      "https://gameinformer.com/sites/default/files/styles/no_compression/public/cover1.jpg.webp".data
      = ⟨["cover1.jpg.webp".data], true, 0, true⟩ ∧
    runDownloads (fun _ => none) ["cover1.jpg.webp".data]
      ["https://gameinformer.com/sites/default/files/styles/no_compression/public/cover1.jpg.webp".data]
      = ⟨["cover1.jpg.webp".data], 0, 1, 0⟩ :=
  ⟨download_skip_rule.1 _ _ _ (by decide),
   by rw [download_skip_rule.2 _ _ _ _ (by decide)]; rfl⟩

/-! ### Claim C8 -/

/-- Claim C8: per-image failures are non-fatal.  When the existence
check `os.path.exists(os.path.join(output_dir, filename))` fails — so
the derived filename is a genuinely absent regular name, not the empty /
`.` / `..` names whose join is the existing directory itself — the
fetch-and-write step actually runs; if it raises (modelled by
`fetch url = none`), `download_image` catches the exception and returns
`False` with the directory contents unchanged (one network attempt, no
skip report); the driving loop then continues with the remaining URLs,
the failed URL contributing nothing to the downloaded or skipped tallies
— only its one network attempt. -/
theorem download_failure_nonfatal :
    (∀ (fetch : Str → Option Str) (files : List Str) (url : Str),
      fetch url = none → ¬ pathExists files (derivedFilename url) →
      download_image fetch files url = ⟨files, false, 1, false⟩) ∧
    (∀ (fetch : Str → Option Str) (files : List Str) (url : Str) (rest : List Str),
      fetch url = none → ¬ pathExists files (derivedFilename url) →
      ¬ pathExists files (pyBasename (parsedPath url)) →
      runDownloads fetch files (url :: rest) =
        ⟨(runDownloads fetch files rest).files,
         (runDownloads fetch files rest).successCount,
         (runDownloads fetch files rest).skipCount,
         (runDownloads fetch files rest).netCalls + 1⟩) := by
  have hdl : ∀ (fetch : Str → Option Str) (files : List Str) (url : Str),
      fetch url = none → ¬ pathExists files (derivedFilename url) →
      download_image fetch files url = ⟨files, false, 1, false⟩ := by
    intro fetch files url hf hni
    unfold download_image
    rw [if_neg hni, hf]
  refine ⟨hdl, ?_⟩
  intro fetch files url rest hf hni hnb
  show (if pathExists files (pyBasename (parsedPath url)) then _ else _) = _
  rw [if_neg hnb, hdl fetch files url hf hni]
  rfl

/-- Witness for C8's theorem: a network failure on a fresh URL returns
`False` without touching the (empty) directory, and the loop goes on to
process the remaining URL exactly as if the failed one were absent. -/
theorem download_failure_nonfatal_witness :
    download_image (fun _ => none) []
      "https://gameinformer.com/sites/default/files/styles/no_compression/public/x.jpg.webp".data
      = ⟨[], false, 1, false⟩ ∧
    runDownloads (fun _ => none) []
      ["https://gameinformer.com/sites/default/files/styles/no_compression/public/x.jpg.webp".data]
      = ⟨[], 0, 0, 1⟩ :=
  ⟨download_failure_nonfatal.1 _ _ _ rfl (by decide),
   by rw [download_failure_nonfatal.2 _ _ _ _ rfl (by decide) (by decide)]; rfl⟩

end CoverExport
